import Mathlib

/-!
Shallow embedding of the chksound loudness analyzer: `src/main.rs`,
`src/audio/mod.rs` and `src/audio/bs1770.rs`.

Modelling conventions, used throughout:

* `f64` values are modelled as exact rationals. Every operation the embedded
  code performs on them (addition, subtraction, multiplication, division,
  absolute value, max/min, comparison, rounding, integer casts) is the exact
  real operation, which the floating-point source realizes up to rounding of
  the representation.
* The transcendental operations (`powf`, `log10`, `tan`/`atan`/`sqrt` in
  `Biquad::re_quantize`) have no exact rational counterpart. Where a claim
  needs such a value the embedding takes the already-exponentiated value as a
  parameter (documented at each definition), keeps the value symbolic, or is
  instantiated at the reference sample rate 48000 where `re_quantize` is the
  identity.
* The histogram `BTreeMap<Power, Bin>` is modelled as an association list in
  ascending key order (the iteration order of the map); the 7501 bin edges
  built by `Stats::new`, whose keys `10^(0.1(0.691+db))` are transcendental,
  are abstracted as an `edges` parameter listing `(key, lower-edge loudness)`
  pairs.
-/

set_option allowUnsafeReducibility true in
attribute [semireducible] Rat.mul Rat.inv Rat.add Rat.sub

namespace Chksound

/-- Rust `f64::EPSILON` = 2^(-52), used by `impl PartialEq for Power`. -/
def f64Epsilon : ℚ := 1 / 2 ^ 52

/-- Constant `Power::MIN` = 1.1724653045822964e-7 (bs1770.rs line 11). -/
def powerMinVal : ℚ := 11724653045822964 / 10 ^ 23

/-- Constant `Power::MAX` = 3.7076608400031104 (bs1770.rs line 12). -/
def powerMaxVal : ℚ := 37076608400031104 / 10 ^ 16

/-- Model of `impl PartialEq for Power` (bs1770.rs lines 31-35): equality of the
raw values up to `f64::EPSILON`. -/
def powerEq (a b : ℚ) : Bool := decide (|a - b| < f64Epsilon)

/-- Model of `impl Ord for Power` (bs1770.rs lines 45-55): exact comparison of
the raw values. -/
def powerCmp (a b : ℚ) : Ordering :=
  if a < b then Ordering.lt else if b < a then Ordering.gt else Ordering.eq

/-- Rust `f64::round`: round half away from zero. -/
def rustRound (q : ℚ) : ℤ := if 0 ≤ q then ⌊q + 1 / 2⌋ else ⌈q - 1 / 2⌉

/-- Truncation toward zero, the rounding used by Rust float-to-integer `as` casts. -/
def rustTrunc (q : ℚ) : ℤ := if 0 ≤ q then ⌊q⌋ else ⌈q⌉

/-- Saturating `as i32` cast of a finite float. -/
def rustAsI32 (q : ℚ) : ℤ := max (-(2 ^ 31)) (min (rustTrunc q) (2 ^ 31 - 1))

/-- Saturating `as usize` cast of a finite float (saturates at 0 from below;
the upper saturation is irrelevant at the values this development uses). -/
def rustAsUsize (q : ℚ) : ℕ := (rustTrunc q).toNat

/-- Model of `adjust_gain` (main.rs lines 51-53):
`(10.0f64.powf(-gain / 10.0) * base).round().min(65534.0) as i32`.
The transcendental factor `10^(-gain/10)` is passed in as the parameter `amp`. -/
def adjust_gain (amp base : ℚ) : ℤ :=
  rustAsI32 (min ((rustRound (amp * base) : ℤ) : ℚ) 65534)

/-- Spec-side formula for C8: `min(round(10^(-gain/10) · base), 65534)` as an
integer, with `amp = 10^(-gain/10)`. -/
def adjustGainSpec (amp base : ℚ) : ℤ := min (rustRound (amp * base)) 65534

/-- Uppercase hexadecimal digit character, as produced by Rust `{:X}` formatting. -/
def hexDigitChar (n : ℕ) : Char := Char.ofNat (if n < 10 then 48 + n else 55 + n)

/-- Fuelled helper for `hexRep`; the fuel only serves termination and never runs
out when it starts at the formatted number itself. -/
def hexRepAux : ℕ → ℕ → List Char
  | 0, n => [hexDigitChar n]
  | fuel + 1, n =>
    if n < 16 then [hexDigitChar n]
    else hexRepAux fuel (n / 16) ++ [hexDigitChar (n % 16)]

/-- Uppercase hexadecimal digits of `n`, most significant first, no leading
zeros (Rust `{:X}`). -/
def hexRep (n : ℕ) : List Char := hexRepAux n n

/-- Rust `{:08X}`: the hex digits left-padded with `'0'` to a minimum width of 8. -/
def fmtHex8 (n : ℕ) : String := String.mk (List.replicate (8 - (hexRep n).length) '0' ++ hexRep n)

/-- Two's-complement bit pattern of an `i32`, which is what `{:08X}` formats for
a signed integer. -/
def toU32 (z : ℤ) : ℕ := (z % 2 ^ 32).toNat

/-- The normalization string built by the consumer (main.rs lines 91-99) from
the six formatted `i32` fields; positions 5, 6, 9, 10 are hard-coded
`"00000000"` in the format string. -/
def normalization (a b c d e f : ℤ) : String :=
  " " ++ fmtHex8 (toU32 a) ++ " " ++ fmtHex8 (toU32 b) ++ " " ++ fmtHex8 (toU32 c) ++ " " ++
    fmtHex8 (toU32 d) ++ " " ++ "00000000" ++ " " ++ "00000000" ++ " " ++ fmtHex8 (toU32 e) ++
    " " ++ fmtHex8 (toU32 f) ++ " " ++ "00000000" ++ " " ++ "00000000"

/-- The sixteen uppercase hexadecimal digit characters. -/
def hexUpperChars : List Char :=
  ['0', '1', '2', '3', '4', '5', '6', '7', '8', '9', 'A', 'B', 'C', 'D', 'E', 'F']

/-- Every character of `s` is an uppercase hexadecimal digit. -/
def allHex (s : String) : Prop := ∀ c ∈ s.data, c ∈ hexUpperChars

/-- Histogram cell (bs1770.rs lines 261-264): the lower-edge loudness of the
cell and its sample count. -/
structure Bin where
  db : ℚ
  count : ℕ

/-- Model of `Stats` (bs1770.rs lines 266-273). `bins` is the `BTreeMap` as an
association list in ascending key order. -/
structure Stats where
  max_wmsq : ℚ
  pass1_wmsq : ℚ
  pass1_count : ℕ
  bins : List (ℚ × Bin)

/-- Model of `Stats::new` (bs1770.rs lines 279-293): every bin starts with
count 0. The 7501 `(Power key, lower-edge loudness)` pairs are abstracted as
the `edges` parameter because the keys `10^(0.1(0.691+db))` are transcendental. -/
def Stats.new (edges : List (ℚ × ℚ)) : Stats :=
  { max_wmsq := powerMinVal
    pass1_wmsq := 0
    pass1_count := 0
    bins := edges.map fun e => (e.1, { db := e.2, count := 0 }) }

/-- Model of `self.bins.range_mut(..=wmsq).last()` followed by `bin.count += 1`
(bs1770.rs line 318-321): increment the count of the bin with the greatest key
`≤ wmsq` (the last such entry in ascending order); `none` when no key qualifies. -/
def updateLastLE : List (ℚ × Bin) → ℚ → Option (List (ℚ × Bin))
  | [], _ => none
  | (k, b) :: rest, w =>
    match updateLastLE rest w with
    | some rest1 => some ((k, b) :: rest1)
    | none => if k ≤ w then some ((k, { b with count := b.count + 1 }) :: rest) else none

/-- Model of `Stats::add_sqs` (bs1770.rs lines 313-323). -/
def Stats.add_sqs (s : Stats) (wmsq : ℚ) : Stats :=
  let s1 := if s.max_wmsq < wmsq then { s with max_wmsq := wmsq } else s
  match updateLastLE s1.bins wmsq with
  | some bins1 =>
    { s1 with
      pass1_count := s1.pass1_count + 1
      pass1_wmsq := s1.pass1_wmsq + (wmsq - s1.pass1_wmsq) / ((s1.pass1_count + 1 : ℕ) : ℚ)
      bins := bins1 }
  | none => s1

/-- Model of `self.bins.iter_mut().zip(&rhs.bins)` with `l.count += r.count`
(bs1770.rs lines 307-309): pairwise count addition, stopping at the shorter list. -/
def zipAddCounts : List (ℚ × Bin) → List (ℚ × Bin) → List (ℚ × Bin)
  | [], _ => []
  | l, [] => l
  | (k, b) :: l, (_, rb) :: r => (k, { b with count := b.count + rb.count }) :: zipAddCounts l r

/-- Model of `Stats::merge` (bs1770.rs lines 295-311). -/
def Stats.merge (s rhs : Stats) : Stats :=
  let s1 := if s.max_wmsq < rhs.max_wmsq then { s with max_wmsq := rhs.max_wmsq } else s
  let count := s1.pass1_count + rhs.pass1_count
  if 0 < count then
    { s1 with
      pass1_count := count
      pass1_wmsq := s1.pass1_wmsq * ((s1.pass1_count : ℚ) / (count : ℚ)) +
        rhs.pass1_wmsq * ((rhs.pass1_count : ℚ) / (count : ℚ))
      bins := zipAddCounts s1.bins rhs.bins }
  else s1

/-- Model of `Stats::get_mean` (bs1770.rs lines 329-344). `gateMul` is the
pre-exponentiated `10^(0.1·gate)` of `Power::gate` (bs1770.rs lines 14-16);
the returned `Loudness` is represented before the logarithmic conversion:
`none` stands for `Loudness::MIN`, `some p` for `Loudness::from(p)`. -/
def Stats.get_mean (s : Stats) (gateMul : ℚ) : Option ℚ :=
  let threshold := s.pass1_wmsq * gateMul
  let r := (s.bins.filter fun p => decide (0 < p.2.count) && decide (threshold < p.1)).foldl
    (fun a p => (a.1 + p.1 * (p.2.count : ℚ), a.2 + p.2.count)) ((0 : ℚ), (0 : ℕ))
  if 0 < r.2 then some (r.1 / (r.2 : ℚ)) else none

/-- Model of `Stats::get_range` (bs1770.rs lines 346-384); `gateMul` as in
`get_mean`. The result is the returned `Loudness` difference `max - min`,
an exact rational combination of bin lower edges. -/
def Stats.get_range (s : Stats) (gateMul lower upper : ℚ) : ℚ :=
  let threshold := s.pass1_wmsq * gateMul
  let count : ℕ :=
    ((s.bins.filter fun p => decide (0 < p.2.count) && decide (threshold < p.1)).map
      fun p => p.2.count).sum
  if count = 0 then 0
  else
    let lower1 := max (min lower upper) 0
    let upper1 := min (max upper lower) 1
    let lower_count := rustAsUsize ((count : ℚ) * lower1)
    let upper_count := rustAsUsize ((count : ℚ) * upper1)
    let r := (s.bins.filter fun p => decide (threshold < p.1)).foldl
      (fun acc p =>
        let c := acc.1 + p.2.count
        (c,
          (if acc.1 < lower_count ∧ lower_count ≤ c then p.2.db else acc.2.1,
            if acc.1 < upper_count ∧ upper_count ≤ c then p.2.db else acc.2.2)))
      ((0 : ℕ), ((0 : ℚ), (0 : ℚ)))
    r.2.2 - r.2.1

/-- Spec-side walk for C3: walking the cells in order with running prefix sum,
the first cell where `prev < k ≤ c` supplies its lower-edge loudness; `d` if no
cell does. -/
def scanD (k : ℕ) : ℕ → List (ℚ × Bin) → ℚ → ℚ
  | _, [], d => d
  | prev, p :: rest, d =>
    if prev < k ∧ k ≤ prev + p.2.count then p.2.db else scanD k (prev + p.2.count) rest d

/-- Spec-side description of `get_range` for C3, written from the claim's words:
compute the gated total `N`, return `Loudness(0)` when `N = 0`, otherwise take
the first-cell minimum and maximum of the walk and return `max - min`. -/
def getRangeSpec (s : Stats) (gateMul lower upper : ℚ) : ℚ :=
  let threshold := s.pass1_wmsq * gateMul
  let cells := s.bins.filter fun p => decide (threshold < p.1)
  let n : ℕ := (cells.map fun p => p.2.count).sum
  if n = 0 then 0
  else
    let lower1 := max (min lower upper) 0
    let upper1 := min (max upper lower) 1
    let lower_k := rustAsUsize ((n : ℚ) * lower1)
    let upper_k := rustAsUsize ((n : ℚ) * upper1)
    scanD upper_k 0 cells 0 - scanD lower_k 0 cells 0

/-- Spec-side description of `get_mean` for C6: sum `x · count` and `count`
over the cells with positive count and key above the threshold; `Loudness::MIN`
(`none`) if the summed count is zero, else the loudness of `sum/count`. -/
def getMeanSpec (s : Stats) (gateMul : ℚ) : Option ℚ :=
  let threshold := s.pass1_wmsq * gateMul
  let cells := s.bins.filter fun p => decide (0 < p.2.count) && decide (threshold < p.1)
  let cnt : ℕ := (cells.map fun p => p.2.count).sum
  if cnt = 0 then none
  else some ((cells.map fun p => p.1 * (p.2.count : ℚ)).sum / (cnt : ℚ))

/-- Total number of samples held in the histogram cells. -/
def binCountSum (bins : List (ℚ × Bin)) : ℕ := (bins.map fun p => p.2.count).sum

/-- Lower-edge loudness of the last cell with a positive count, `d` if none. -/
def lastPresentDb : List (ℚ × Bin) → ℚ → ℚ
  | [], d => d
  | p :: rest, d => lastPresentDb rest (if 0 < p.2.count then p.2.db else d)

/-- Stats values built from `Stats::new` over a fixed edge table by any
sequence of `add_sqs` and `merge` operations, together with the multiset of
all powers ever passed to `add_sqs` anywhere in the construction. -/
inductive BuiltW (edges : List (ℚ × ℚ)) : Stats → Multiset ℚ → Prop
  | new : BuiltW edges (Stats.new edges) 0
  | add {s W w} : BuiltW edges s W → BuiltW edges (s.add_sqs w) (w ::ₘ W)
  | merge {s W t V} : BuiltW edges s W → BuiltW edges t V → BuiltW edges (s.merge t) (W + V)

/-- Model of `Block` (bs1770.rs lines 388-400), the sliding-window aggregator. -/
structure Block where
  stats : Stats
  gate : ℚ
  overlap_size : ℕ
  scale : ℚ
  ring_size : ℕ
  ring_used : ℕ
  ring_count : ℕ
  ring_offs : ℕ
  ring_wmsq : List ℚ

/-- Model of `Block::new` (bs1770.rs lines 403-417); `edges` abstracts the bin
table of the fresh `Stats::new()` as in `Stats.new`. -/
def Block.new (edges : List (ℚ × ℚ)) (overlap_size partition : ℕ) : Block :=
  { stats := Stats.new edges
    gate := powerMinVal
    overlap_size := overlap_size
    scale := 1 / ((partition * overlap_size : ℕ) : ℚ)
    ring_size := partition
    ring_used := 1
    ring_count := 0
    ring_offs := 0
    ring_wmsq := List.replicate partition 0 }

/-- Model of `Block::add_sqs` (bs1770.rs lines 419-448), instrumented to also
return the power of the block finalized at this frame when the finalization
branch runs (`ring_used == ring_size` at a sub-window boundary). -/
def Block.step (b : Block) (wssqs : ℚ) : Block × Option ℚ :=
  let ws := wssqs * b.scale
  let wmsq := b.ring_wmsq.mapIdx fun i v => if i < b.ring_used then v + ws else v
  if b.ring_count + 1 = b.overlap_size then
    let next := if b.ring_offs + 1 < b.ring_size then b.ring_offs + 1 else 0
    let fin := if b.ring_used = b.ring_size then some (wmsq.getD next 0) else none
    let stats :=
      match fin with
      | some v => if b.gate < v then b.stats.add_sqs v else b.stats
      | none => b.stats
    ({ b with
        stats := stats
        ring_wmsq := wmsq.set next 0
        ring_count := 0
        ring_offs := next
        ring_used := if b.ring_used < b.ring_size then b.ring_used + 1 else b.ring_used },
      fin)
  else ({ b with ring_wmsq := wmsq, ring_count := b.ring_count + 1 }, none)

/-- Model of `Block::add_sqs` with the instrumentation dropped. -/
def Block.add_sqs (b : Block) (wssqs : ℚ) : Block := (b.step wssqs).1

/-- Feed a sequence of frame energies to a block, collecting the finalization
events of each frame. -/
def Block.feed : Block → List ℚ → Block × List (Option ℚ)
  | b, [] => (b, [])
  | b, w :: ws =>
    let s := b.step w
    let r := Block.feed s.1 ws
    (r.1, s.2 :: r.2)

/-- Invariant tying the ring state of a block built as `Block.new edges 4800 4`
to the number `k` of frames fed so far; it characterizes the finalization
schedule of C5. -/
def InvB (k : ℕ) (b : Block) : Prop :=
  b.overlap_size = 4800 ∧ b.ring_size = 4 ∧ b.ring_count = k % 4800 ∧
    b.ring_offs = k / 4800 % 4 ∧ b.ring_used = min (k / 4800 + 1) 4

/-- Model of `Biquad` (bs1770.rs lines 177-184). -/
structure Biquad where
  sample_rate : ℕ
  a1 : ℚ
  a2 : ℚ
  b0 : ℚ
  b1 : ℚ
  b2 : ℚ

/-- Reference section `Biquad::f1_48000` (bs1770.rs lines 238-247). -/
def Biquad.f1_48000 : Biquad :=
  { sample_rate := 48000
    a1 := -169065929318241 / 10 ^ 14
    a2 := 73248077421585 / 10 ^ 14
    b0 := 153512485958697 / 10 ^ 14
    b1 := -269169618940638 / 10 ^ 14
    b2 := 119839281085285 / 10 ^ 14 }

/-- Reference section `Biquad::f2_48000` (bs1770.rs lines 249-258). -/
def Biquad.f2_48000 : Biquad :=
  { sample_rate := 48000
    a1 := -199004745483398 / 10 ^ 14
    a2 := 99007225036621 / 10 ^ 14
    b0 := 1
    b1 := -2
    b2 := 1 }

/-- Model of `PreFilter` (bs1770.rs lines 452-464). -/
structure PreFilter where
  block : List Block
  sample_rate : ℕ
  channels : ℕ
  f1 : Biquad
  f2 : Biquad
  ring_offs : ℤ
  ring_size : ℕ
  ring_buf : List (List ℚ)

/-- Constant `PreFilter::BUF_SIZE` (bs1770.rs line 467). -/
def bufSize : ℕ := 9

/-- Constant `PreFilter::CHANNEL_WEIGHTS` (bs1770.rs line 469). -/
def channelWeights : List ℚ := [1, 1, 1, 141 / 100, 141 / 100]

/-- Index helper `x_` inside `PreFilter::add_sample` (bs1770.rs lines 494-500). -/
def xIdx (offs i : ℤ) : ℕ := if offs + i < 0 then (9 + offs + i).toNat else (offs + i).toNat

/-- Index helper `y_` inside `PreFilter::add_sample` (bs1770.rs lines 502-504). -/
def yIdx (offs i : ℤ) : ℕ := xIdx (offs - 6) i

/-- Index helper `z_` inside `PreFilter::add_sample` (bs1770.rs lines 506-508). -/
def zIdx (offs i : ℤ) : ℕ := xIdx (offs - 3) i

/-- Model of `PreFilter::new` (bs1770.rs lines 471-485) at the reference rate
48000, where `re_quantize` returns both sections unchanged (bs1770.rs line 221);
other rates would require the transcendental re-quantization. `channels` is
clamped to `MAX_CHANNELS = 5`. -/
def PreFilter.new48 (channels : ℕ) : PreFilter :=
  { block := []
    sample_rate := 48000
    channels := min channels 5
    f1 := Biquad.f1_48000
    f2 := Biquad.f2_48000
    ring_offs := 1
    ring_size := 1
    ring_buf := List.replicate (min channels 5) (List.replicate bufSize 0) }

/-- Overlap size computed by `PreFilter::add_block` (bs1770.rs line 488):
`(length * sample_rate / partition).round() as usize`. -/
def overlapSize (length : ℚ) (sample_rate partition : ℕ) : ℕ :=
  rustAsUsize ((rustRound (length * (sample_rate : ℚ) / (partition : ℚ)) : ℤ) : ℚ)

/-- Model of `PreFilter::add_block` (bs1770.rs lines 487-490). -/
def PreFilter.add_block (pf : PreFilter) (edges : List (ℚ × ℚ)) (length : ℚ)
    (partition : ℕ) : PreFilter :=
  { pf with
    block := pf.block ++ [Block.new edges (overlapSize length pf.sample_rate partition) partition] }

/-- One channel iteration of the loop in `PreFilter::add_sample` (bs1770.rs
lines 516-537): write the sample into the `x` slot, and when more than one
frame of history exists run the two biquad sections and return this channel's
weighted squared contribution to `wssqs`. -/
def stepCh (f1 f2 : Biquad) (offs : ℤ) (ring_size ch : ℕ) (buf : List ℚ) (s : ℚ) :
    List ℚ × ℚ :=
  let buf1 := buf.set (xIdx offs 0) s
  let x := buf1.getD (xIdx offs 0) 0
  if 1 < ring_size then
    let y := x * f1.b0 + buf1.getD (xIdx offs (-1)) 0 * f1.b1 +
      buf1.getD (xIdx offs (-2)) 0 * f1.b2 - buf1.getD (yIdx offs (-1)) 0 * f1.a1 -
      buf1.getD (yIdx offs (-2)) 0 * f1.a2
    let buf2 := buf1.set (yIdx offs 0) y
    let y1 := buf2.getD (yIdx offs 0) 0
    let z := y1 * f2.b0 + buf2.getD (yIdx offs (-1)) 0 * f2.b1 +
      buf2.getD (yIdx offs (-2)) 0 * f2.b2 - buf2.getD (zIdx offs (-1)) 0 * f2.a1 -
      buf2.getD (zIdx offs (-2)) 0 * f2.a2
    let buf3 := buf2.set (zIdx offs 0) z
    let z1 := buf3.getD (zIdx offs 0) 0
    (buf3, z1 * z1 * channelWeights.getD ch 0)
  else (buf1, 0)

/-- Model of `PreFilter::add_sample` (bs1770.rs lines 492-551), instrumented to
also return the `wssqs` forwarded to every attached block. -/
def PreFilter.addSampleW (pf : PreFilter) (sample : List ℚ) : PreFilter × ℚ :=
  let n := min sample.length pf.channels
  let acc := (List.range n).foldl
    (fun (acc : List (List ℚ) × ℚ) ch =>
      let r := stepCh pf.f1 pf.f2 pf.ring_offs pf.ring_size ch (acc.1.getD ch [])
        (sample.getD ch 0)
      (acc.1.set ch r.1, acc.2 + r.2))
    (pf.ring_buf, 0)
  let offs1 := pf.ring_offs + 1
  ({ pf with
      ring_buf := acc.1
      block := pf.block.map fun b => b.add_sqs acc.2
      ring_size := if pf.ring_size < 2 then pf.ring_size + 1 else pf.ring_size
      ring_offs := if offs1 = 9 then 0 else offs1 },
    acc.2)

/-- Model of `PreFilter::add_sample` with the instrumentation dropped. -/
def PreFilter.add_sample (pf : PreFilter) (sample : List ℚ) : PreFilter :=
  (pf.addSampleW sample).1

/-- The sequence of per-frame `wssqs` values a pre-filter forwards to its
blocks while consuming the given frames. -/
def preFilterOutputs : PreFilter → List (List ℚ) → List ℚ
  | _, [] => []
  | pf, frame :: frames =>
    let r := pf.addSampleW frame
    r.2 :: preFilterOutputs r.1 frames

/-- The pre-filter state after consuming a list of frames. -/
def PreFilter.feed (pf : PreFilter) (frames : List (List ℚ)) : PreFilter :=
  frames.foldl PreFilter.add_sample pf

/-- Spec-side per-channel filter computation for C4, written from the spec's
words (section 4.2): write the new sample into `x[0]`, compute `y[0]` from f1
applied to `(x[0], x[-1], x[-2], y[-1], y[-2])`, compute `z[0]` from f2 applied
to `(y[0], y[-1], y[-2], z[-1], z[-2])`, and contribute `z[0]² · weight`; the
histories are read back from the channel's ring buffer exactly as the code
reads them, with never-written slots holding 0. -/
def chContrib (f1 f2 : Biquad) (offs : ℤ) (ch : ℕ) (buf : List ℚ) (s : ℚ) : ℚ :=
  let buf1 := buf.set (xIdx offs 0) s
  let x := buf1.getD (xIdx offs 0) 0
  let y := x * f1.b0 + buf1.getD (xIdx offs (-1)) 0 * f1.b1 +
    buf1.getD (xIdx offs (-2)) 0 * f1.b2 - buf1.getD (yIdx offs (-1)) 0 * f1.a1 -
    buf1.getD (yIdx offs (-2)) 0 * f1.a2
  let buf2 := buf1.set (yIdx offs 0) y
  let y1 := buf2.getD (yIdx offs 0) 0
  let z := y1 * f2.b0 + buf2.getD (yIdx offs (-1)) 0 * f2.b1 +
    buf2.getD (yIdx offs (-2)) 0 * f2.b2 - buf2.getD (zIdx offs (-1)) 0 * f2.a1 -
    buf2.getD (zIdx offs (-2)) 0 * f2.a2
  let buf3 := buf2.set (zIdx offs 0) z
  let z1 := buf3.getD (zIdx offs 0) 0
  z1 * z1 * channelWeights.getD ch 0

/-- Spec-side `wssqs` of one frame for C4: the sum of the per-channel filter
contributions over the channels actually present, computed from the current
pre-filter state — the value §4.2 says every frame with history produces. -/
def wssqsSpec (pf : PreFilter) (sample : List ℚ) : ℚ :=
  ((List.range (min sample.length pf.channels)).map fun ch =>
    chContrib pf.f1 pf.f2 pf.ring_offs ch (pf.ring_buf.getD ch []) (sample.getD ch 0)).sum

/-- Model of `Iterator::max_by` with `partial_cmp(..).unwrap()` over finite
values: the maximum of the list, `none` when it is empty. -/
def maxBy : List ℚ → Option ℚ
  | [] => none
  | x :: xs =>
    match maxBy xs with
    | none => some x
    | some m => some (if x < m then m else x)

/-- Model of `Analyzer` (mod.rs lines 130-133). -/
structure Analyzer where
  filter : PreFilter
  peak : ℚ

/-- Model of `Analyzer::new` (mod.rs lines 136-141) at 48 kHz: a pre-filter
with one block of length 0.4 s and partition 4. -/
def Analyzer.new48 (edges : List (ℚ × ℚ)) (channels : ℕ) : Analyzer :=
  { filter := (PreFilter.new48 channels).add_block edges (2 / 5) 4
    peak := 0 }

/-- Model of `Analyzer::add_sample` (mod.rs lines 143-151): `none` models the
panic of the `unwrap` on the `max_by` of an empty frame. -/
def Analyzer.add_sample (a : Analyzer) (sample : List ℚ) : Option Analyzer :=
  let filter := a.filter.add_sample sample
  match maxBy (sample.map fun f => |f|) with
  | none => none
  | some m => some { filter := filter, peak := max m a.peak }

/-- Model of `Aggregator` (mod.rs lines 158-161). -/
structure Aggregator where
  stats : Stats
  peak : ℚ

/-- Model of a result-channel `Entry` as the consumer sees it (main.rs lines
33-38): the worker-filled stats and peak, plus the optional album aggregator. -/
structure EntryRes where
  stats : Stats
  peak : ℚ
  aggregator : Option Aggregator

/-- Per-entry computation of the consumer loop (main.rs lines 78-89), returning
`((track_gain, track_peak), (album_gain, album_peak))`. Gains are represented
by the `get_mean` value they are computed from (`to_gain` is applied after the
conversion and `10^(0.1·(-10)) = 1/10` exactly); peaks are the
`(peak * 32768.0) as i32` values. -/
def consumerCompute (e : EntryRes) : (Option ℚ × ℤ) × (Option ℚ × ℤ) :=
  let track_gain := e.stats.get_mean (1 / 10)
  let track_peak := rustAsI32 (e.peak * 32768)
  match e.aggregator with
  | some agg =>
    ((track_gain, track_peak), (agg.stats.get_mean (1 / 10), rustAsI32 (agg.peak * 32768)))
  | none => ((track_gain, track_peak), (track_gain, track_peak))

/-- Spec-side track peak for C2: `round(peak · 32768)`, nearest-integer
rounding. -/
def trackPeakSpec (peak : ℚ) : ℤ := rustRound (peak * 32768)

/-- C10: `Power`'s equality (within `f64::EPSILON`) is inconsistent with its
total order: at `p = 0`, `q = 2^(-53)` the raw values differ by less than
`f64::EPSILON`, so `p == q` holds, yet `cmp` compares the raw values exactly
and returns `Less`; the histogram's ordered-map key comparisons therefore do
not coincide with the equivalence induced by `==`. -/
theorem C10_power_eq_cmp_mismatch :
    ∃ p q : ℚ, powerEq p q = true ∧ powerCmp p q = Ordering.lt :=
  ⟨0, 1 / 2 ^ 53, by decide, by decide⟩

/-- C9: `Analyzer::add_sample` returns (`some`) exactly on nonempty frames; on
a zero-length frame the peak update takes `max_by` of an empty iterator and
unwraps `None`, which panics (`none`). -/
theorem C9_add_sample_empty_panics (a : Analyzer) (sample : List ℚ) :
    a.add_sample sample = none ↔ sample = [] := by
  cases sample with
  | nil => simp [Analyzer.add_sample, maxBy]
  | cons x xs =>
    simp only [Analyzer.add_sample, List.map_cons, maxBy]
    cases h : maxBy (xs.map fun f => |f|) <;> simp [h]

/-- Helper: the truncating cast of an integer value is that integer. -/
theorem rustTrunc_intCast (z : ℤ) : rustTrunc (z : ℚ) = z := by
  unfold rustTrunc
  split <;> simp

/-- C8: `adjust_gain(gain, base)` equals `min(round(10^(-gain/10)·base), 65534)`
as an integer (`amp` standing for the positive factor `10^(-gain/10)`, and the
rounded value not underflowing `i32`, as holds for every pipeline input), and
the three spec instances hold: `gain = 0, -10, -30` give `amp = 1, 10, 1000`
and results `1000`, `10000`, `65534` (clamped). -/
theorem C8_adjust_gain :
    (∀ amp base : ℚ, -(2 ^ 31) ≤ rustRound (amp * base) →
        adjust_gain amp base = adjustGainSpec amp base) ∧
      adjust_gain 1 1000 = 1000 ∧ adjust_gain 10 1000 = 10000 ∧
      adjust_gain 1000 1000 = 65534 := by
  refine ⟨?_, by decide, by decide, by decide⟩
  intro amp base h
  unfold adjust_gain adjustGainSpec rustAsI32
  rw [show ((rustRound (amp * base) : ℤ) : ℚ) ⊓ 65534 = ((rustRound (amp * base) ⊓ 65534 : ℤ) : ℚ) by
    push_cast; rfl]
  rw [rustTrunc_intCast]
  omega

/-- Witness for C8 at `amp = 1`, `base = 1000`. -/
theorem C8_adjust_gain_witness :
    -(2 ^ 31) ≤ rustRound ((1 : ℚ) * 1000) ∧
      adjust_gain 1 1000 = adjustGainSpec 1 1000 :=
  ⟨by decide, C8_adjust_gain.1 1 1000 (by decide)⟩

/-- Helper: a hex digit character of a value below 16 is an uppercase hex digit. -/
theorem hexDigitChar_mem {n : ℕ} (h : n < 16) : hexDigitChar n ∈ hexUpperChars := by
  interval_cases n <;> decide

/-- Helper: all characters produced by `hexRepAux` are uppercase hex digits
when the fuel dominates the argument. -/
theorem hexRepAux_mem : ∀ fuel n, n ≤ fuel → ∀ c ∈ hexRepAux fuel n, c ∈ hexUpperChars := by
  intro fuel
  induction fuel with
  | zero =>
    intro n hn c hc
    have h0 : n = 0 := by omega
    subst h0
    simp only [hexRepAux] at hc
    simp only [List.mem_singleton] at hc
    subst hc
    exact hexDigitChar_mem (by omega)
  | succ fuel ih =>
    intro n hn c hc
    simp only [hexRepAux] at hc
    by_cases h16 : n < 16
    · rw [if_pos h16] at hc
      simp only [List.mem_singleton] at hc
      subst hc
      exact hexDigitChar_mem h16
    · rw [if_neg h16] at hc
      rcases List.mem_append.mp hc with h | h
      · exact ih (n / 16) (by omega) c h
      · simp only [List.mem_singleton] at h
        subst h
        exact hexDigitChar_mem (by omega)

/-- Helper: `hexRepAux` produces at most `k` digits for a number below `16^k`. -/
theorem hexRepAux_length : ∀ fuel n k, 0 < k → n < 16 ^ k → (hexRepAux fuel n).length ≤ k := by
  intro fuel
  induction fuel with
  | zero =>
    intro n k hk _
    simp only [hexRepAux, List.length_singleton]
    omega
  | succ fuel ih =>
    intro n k hk hn
    simp only [hexRepAux]
    by_cases h16 : n < 16
    · rw [if_pos h16]
      simp only [List.length_singleton]
      omega
    · rw [if_neg h16]
      have hk2 : 2 ≤ k := by
        by_contra hlt
        have h1 : k = 1 := by omega
        subst h1
        simp only [pow_one] at hn
        omega
      have hdiv : n / 16 < 16 ^ (k - 1) := by
        rw [Nat.div_lt_iff_lt_mul (by norm_num)]
        calc n < 16 ^ k := hn
          _ = 16 ^ (k - 1) * 16 := by
            rw [← pow_succ]
            congr 1
            omega
      have := ih (n / 16) (k - 1) (by omega) hdiv
      simp only [List.length_append, List.length_singleton]
      omega

/-- Helper: a `{:08X}` field of a value below `2^32` is exactly 8 characters. -/
theorem fmtHex8_length {n : ℕ} (h : n < 2 ^ 32) : (fmtHex8 n).length = 8 := by
  have hlen : (hexRep n).length ≤ 8 := by
    refine hexRepAux_length n n 8 (by norm_num) ?_
    calc n < 2 ^ 32 := h
      _ = 16 ^ 8 := by norm_num
  show (List.replicate (8 - (hexRep n).length) '0' ++ hexRep n).length = 8
  simp only [List.length_append, List.length_replicate]
  omega

/-- Helper: every character of a `{:08X}` field is an uppercase hex digit. -/
theorem fmtHex8_allHex (n : ℕ) : allHex (fmtHex8 n) := by
  intro c hc
  have hc2 : c ∈ List.replicate (8 - (hexRep n).length) '0' ++ hexRep n := hc
  rcases List.mem_append.mp hc2 with h | h
  · have := List.eq_of_mem_replicate h
    subst this
    decide
  · exact hexRepAux_mem n n le_rfl c h

/-- Helper: the two's-complement pattern of any integer is below `2^32`. -/
theorem toU32_lt (z : ℤ) : toU32 z < 2 ^ 32 := by
  unfold toU32
  have h1 := Int.emod_lt_of_pos z (show (0 : ℤ) < 2 ^ 32 by norm_num)
  have h2 := Int.emod_nonneg z (show (2 ^ 32 : ℤ) ≠ 0 by norm_num)
  omega

/-- C1 counterexample: at the field values of a typical entry (gains 1000 and
2500, peaks 16384) the emitted iTunNORM string has 90 characters, not 100. -/
theorem C1_length_counterexample :
    (normalization 1000 1000 2500 2500 16384 16384).length ≠ 100 := by decide

/-- C1 amended: the normalization string is a single space-prefixed,
space-separated sequence of ten 8-hex-digit uppercase fields whose fields 5, 6,
9 and 10 are the literal "00000000"; it begins with a space and is exactly 90
(not 100) characters long. -/
theorem C1_normalization_format (a b c d e f : ℤ) :
    ∃ t1 t2 t3 t4 t7 t8 : String,
      normalization a b c d e f =
        " " ++ t1 ++ " " ++ t2 ++ " " ++ t3 ++ " " ++ t4 ++ " " ++ "00000000" ++ " " ++
          "00000000" ++ " " ++ t7 ++ " " ++ t8 ++ " " ++ "00000000" ++ " " ++ "00000000" ∧
      (t1.length = 8 ∧ allHex t1) ∧ (t2.length = 8 ∧ allHex t2) ∧
      (t3.length = 8 ∧ allHex t3) ∧ (t4.length = 8 ∧ allHex t4) ∧
      (t7.length = 8 ∧ allHex t7) ∧ (t8.length = 8 ∧ allHex t8) ∧
      (("00000000" : String).length = 8 ∧ allHex "00000000") ∧
      (normalization a b c d e f).length = 90 ∧
      (normalization a b c d e f).data.head? = some ' ' := by
  refine ⟨fmtHex8 (toU32 a), fmtHex8 (toU32 b), fmtHex8 (toU32 c), fmtHex8 (toU32 d),
    fmtHex8 (toU32 e), fmtHex8 (toU32 f), rfl,
    ⟨fmtHex8_length (toU32_lt a), fmtHex8_allHex _⟩,
    ⟨fmtHex8_length (toU32_lt b), fmtHex8_allHex _⟩,
    ⟨fmtHex8_length (toU32_lt c), fmtHex8_allHex _⟩,
    ⟨fmtHex8_length (toU32_lt d), fmtHex8_allHex _⟩,
    ⟨fmtHex8_length (toU32_lt e), fmtHex8_allHex _⟩,
    ⟨fmtHex8_length (toU32_lt f), fmtHex8_allHex _⟩,
    ⟨by decide, by unfold allHex; decide⟩, ?_, ?_⟩
  · simp only [normalization, String.length_append, fmtHex8_length (toU32_lt a),
      fmtHex8_length (toU32_lt b), fmtHex8_length (toU32_lt c), fmtHex8_length (toU32_lt d),
      fmtHex8_length (toU32_lt e), fmtHex8_length (toU32_lt f)]
    decide
  · simp [normalization, String.data_append, List.append_assoc]

/-- C2 counterexample: at `peak = 3/65536` (exactly representable in `f64`) the
consumer computes track peak 1 — the `as i32` cast truncates `1.5` toward zero
— while the claimed `round(peak · 32768) = round(1.5)` is 2. -/
theorem C2_round_counterexample :
    (consumerCompute { stats := Stats.new [], peak := 3 / 65536, aggregator := none }).1.2 ≠
      trackPeakSpec (3 / 65536) := by decide

/-- C2 amended: the consumer computes the track peak as the `as i32` truncation
toward zero of `peak · 32768` (not its nearest-integer rounding); when the
entry has no album aggregator, the album gain and album peak used for
formatting equal the track gain and track peak. -/
theorem C2_consumer_peak (e : EntryRes) :
    (consumerCompute e).1.2 = rustAsI32 (e.peak * 32768) ∧
      (e.aggregator = none → (consumerCompute e).2 = (consumerCompute e).1) := by
  cases e with
  | mk stats peak agg => cases agg <;> simp [consumerCompute]

/-- Witness for C2 at a concrete aggregator-less entry. -/
theorem C2_consumer_peak_witness :
    ({ stats := Stats.new [], peak := 1 / 2, aggregator := none } : EntryRes).aggregator = none ∧
      (consumerCompute { stats := Stats.new [], peak := 1 / 2, aggregator := none }).2 =
        (consumerCompute { stats := Stats.new [], peak := 1 / 2, aggregator := none }).1 :=
  ⟨rfl, (C2_consumer_peak _).2 rfl⟩

/-- Helper: the pair fold of `get_mean` computes the two sums of the list. -/
theorem foldl_pair_sum (l : List (ℚ × Bin)) (a : ℚ) (b : ℕ) :
    l.foldl (fun acc p => (acc.1 + p.1 * (p.2.count : ℚ), acc.2 + p.2.count)) (a, b) =
      (a + (l.map fun p => p.1 * (p.2.count : ℚ)).sum, b + (l.map fun p => p.2.count).sum) := by
  induction l generalizing a b with
  | nil => simp
  | cons p l ih =>
    simp only [List.foldl_cons, List.map_cons, List.sum_cons, ih]
    simp [add_assoc]

/-- C6: `get_mean` computes the relative threshold as
`pass1_wmsq · 10^(0.1·gate_lu)` (the exponential passed as `gateMul`), sums
`x · count` and `count` over exactly the cells with positive count and key
strictly above the threshold, and returns `Loudness.MIN` (modelled `none`) when
the summed count is zero, otherwise the Loudness of `sum_x / count` (modelled
`some (sum_x / count)`). -/
theorem C6_get_mean (s : Stats) (gateMul : ℚ) :
    s.get_mean gateMul = getMeanSpec s gateMul := by
  unfold Stats.get_mean getMeanSpec
  simp only [foldl_pair_sum, zero_add]
  split_ifs with h1 h2 <;> first | rfl | omega

/-- Helper: `binCountSum` on a cons cell. -/
theorem binCountSum_cons (p : ℚ × Bin) (l : List (ℚ × Bin)) :
    binCountSum (p :: l) = p.2.count + binCountSum l := by
  simp [binCountSum]

/-- Helper: once the prefix sum has reached `k`, the walk never fires again. -/
theorem scanD_frozen (k : ℕ) (cells : List (ℚ × Bin)) :
    ∀ prev d, k ≤ prev → scanD k prev cells d = d := by
  induction cells with
  | nil => intro prev d _; rfl
  | cons p rest ih =>
    intro prev d h
    unfold scanD
    rw [if_neg (by omega)]
    exact ih _ _ (by omega)

/-- Helper: unfolding equation of `scanD` on a cons cell. -/
theorem scanD_cons (k prev : ℕ) (p : ℚ × Bin) (rest : List (ℚ × Bin)) (d : ℚ) :
    scanD k prev (p :: rest) d =
      if prev < k ∧ k ≤ prev + p.2.count then p.2.db else scanD k (prev + p.2.count) rest d :=
  rfl

/-- Helper: the triple fold of `get_range` computes the total count and the two
first-cell walks; the fold keeps the last firing cell, but the firing condition
holds for at most one cell because the prefix sums are monotone, so it agrees
with the first-cell walk. -/
theorem foldl_scanD (lk uk : ℕ) (cells : List (ℚ × Bin)) :
    ∀ (prev : ℕ) (m0 x0 : ℚ),
      cells.foldl (fun acc p =>
        (acc.1 + p.2.count,
          (if acc.1 < lk ∧ lk ≤ acc.1 + p.2.count then p.2.db else acc.2.1,
            if acc.1 < uk ∧ uk ≤ acc.1 + p.2.count then p.2.db else acc.2.2)))
        (prev, (m0, x0)) =
      (prev + binCountSum cells, (scanD lk prev cells m0, scanD uk prev cells x0)) := by
  induction cells with
  | nil =>
    intro prev m0 x0
    simp [binCountSum, scanD]
  | cons p rest ih =>
    intro prev m0 x0
    simp only [List.foldl_cons]
    rw [ih, binCountSum_cons]
    refine congrArg₂ Prod.mk (by omega) (congrArg₂ Prod.mk ?_ ?_)
    · rw [scanD_cons]
      by_cases hc : prev < lk ∧ lk ≤ prev + p.2.count
      · rw [if_pos hc, if_pos hc]
        exact scanD_frozen lk rest (prev + p.2.count) p.2.db hc.2
      · rw [if_neg hc, if_neg hc]
    · rw [scanD_cons]
      by_cases hc : prev < uk ∧ uk ≤ prev + p.2.count
      · rw [if_pos hc, if_pos hc]
        exact scanD_frozen uk rest (prev + p.2.count) p.2.db hc.2
      · rw [if_neg hc, if_neg hc]

/-- Helper: dropping empty cells from the gated filter does not change the
summed count. -/
theorem sum_count_filter (thr : ℚ) (l : List (ℚ × Bin)) :
    ((l.filter fun p => decide (0 < p.2.count) && decide (thr < p.1)).map fun p => p.2.count).sum =
      ((l.filter fun p => decide (thr < p.1)).map fun p => p.2.count).sum := by
  induction l with
  | nil => rfl
  | cons p rest ih =>
    by_cases h1 : thr < p.1
    · by_cases h2 : 0 < p.2.count
      · simp [List.filter_cons, h1, h2, ih]
      · have hc : p.2.count = 0 := by omega
        simp [List.filter_cons, h1, h2, ih, hc]
    · simp [List.filter_cons, h1, ih]

/-- Helper: a histogram with no samples keeps the default in `lastPresentDb`. -/
theorem lastPresentDb_zero (cells : List (ℚ × Bin)) :
    binCountSum cells = 0 → ∀ d, lastPresentDb cells d = d := by
  induction cells with
  | nil => intro _ d; rfl
  | cons p rest ih =>
    intro h d
    rw [binCountSum_cons] at h
    unfold lastPresentDb
    rw [if_neg (by omega)]
    exact ih (by omega) d

/-- Helper: with at least one sample present, `lastPresentDb` ignores its
default. -/
theorem lastPresentDb_indep (cells : List (ℚ × Bin)) :
    binCountSum cells ≠ 0 → ∀ d e, lastPresentDb cells d = lastPresentDb cells e := by
  induction cells with
  | nil => intro h; simp [binCountSum] at h
  | cons p rest ih =>
    intro h d e
    rw [binCountSum_cons] at h
    unfold lastPresentDb
    by_cases hrest : binCountSum rest = 0
    · have hp : 0 < p.2.count := by omega
      rw [if_pos hp, if_pos hp]
    · exact ih hrest _ _

/-- Helper: the walk targeted at the total count lands on the last cell with a
positive count. -/
theorem scanD_total (cells : List (ℚ × Bin)) :
    ∀ prev d, binCountSum cells ≠ 0 →
      scanD (prev + binCountSum cells) prev cells d = lastPresentDb cells d := by
  induction cells with
  | nil => intro prev d h; simp [binCountSum] at h
  | cons p rest ih =>
    intro prev d h
    rw [binCountSum_cons] at h
    unfold scanD lastPresentDb
    by_cases hrest : binCountSum rest = 0
    · have hp : 0 < p.2.count := by omega
      rw [binCountSum_cons, hrest]
      rw [if_pos (by omega), if_pos hp]
      exact (lastPresentDb_zero rest hrest p.2.db).symm
    · rw [binCountSum_cons]
      rw [if_neg (by omega)]
      have heq : prev + (p.2.count + binCountSum rest) = prev + p.2.count + binCountSum rest := by
        omega
      rw [heq, ih (prev + p.2.count) d hrest]
      exact lastPresentDb_indep rest hrest d _

/-- Helper: the saturating `usize` cast of a natural value is that value. -/
theorem rustAsUsize_natCast (n : ℕ) : rustAsUsize ((n : ℕ) : ℚ) = n := by
  unfold rustAsUsize rustTrunc
  rw [if_pos (by positivity)]
  simp

/-- Helper: `get_range` equals its spec-side first-cell description. -/
theorem get_range_eq_spec (s : Stats) (gateMul lower upper : ℚ) :
    s.get_range gateMul lower upper = getRangeSpec s gateMul lower upper := by
  simp only [Stats.get_range, getRangeSpec, sum_count_filter, foldl_scanD]

/-- C3: as amended. `get_range` computes the summed count `N` of the cells above
the relative threshold and returns `Loudness(0)` when `N = 0`; otherwise,
walking the cells above the threshold in ascending order with running prefix
sum `c`, the first cell with `prev_c < lower_k ≤ c` supplies the minimum, the
first with `prev_c < upper_k ≤ c` the maximum, and the result is `max − min`
(first conjunct, against the spec-side walk `getRangeSpec`). However
`get_range(−∞, 0, 1)` (threshold multiplier 0) does not return `max − min`
present: `lower_k = 0` never fires, the minimum keeps its initial value
`Loudness(0)`, and the result is the lower-edge loudness of the highest
nonempty bin minus zero (second conjunct). -/
theorem C3_get_range :
    (∀ (s : Stats) (gateMul lower upper : ℚ),
        s.get_range gateMul lower upper = getRangeSpec s gateMul lower upper) ∧
      (∀ s : Stats, (∀ p ∈ s.bins, (0 : ℚ) < p.1) → binCountSum s.bins ≠ 0 →
        s.get_range 0 0 1 = lastPresentDb s.bins 0 - 0) := by
  refine ⟨get_range_eq_spec, ?_⟩
  intro s hkeys hne
  rw [get_range_eq_spec]
  have hfil : (s.bins.filter fun p => decide (s.pass1_wmsq * 0 < p.1)) = s.bins := by
    apply List.filter_eq_self.mpr
    intro p hp
    rw [mul_zero]
    exact decide_eq_true (hkeys p hp)
  simp only [getRangeSpec, hfil]
  have hfold : (List.map (fun p => p.2.count) s.bins).sum = binCountSum s.bins := rfl
  rw [hfold, if_neg hne]
  have h0 : rustAsUsize (0 : ℚ) = 0 := by
    have h := rustAsUsize_natCast 0
    simpa using h
  have hmaxmin : (max (min (0 : ℚ) 1) 0) = 0 := by norm_num
  have hminmax : (min (max (1 : ℚ) 0) 1) = 1 := by norm_num
  rw [hmaxmin, hminmax, mul_zero, mul_one, h0, rustAsUsize_natCast]
  rw [scanD_frozen 0 s.bins 0 0 le_rfl]
  have hsplit : scanD (binCountSum s.bins) 0 s.bins 0 =
      scanD (0 + binCountSum s.bins) 0 s.bins 0 := by
    rw [zero_add]
  rw [hsplit, scanD_total s.bins 0 0 hne]

/-- C3 counterexample: a reachable `Stats` holding one sample, in the bin whose
lower edge is −24 LU. The only loudness present is −24, so the difference
between the maximum and minimum loudness present is 0, yet
`get_range(−∞, 0, 1)` (threshold multiplier 0) returns −24. -/
theorem C3_range_counterexample :
    ((Stats.new [(1, -24)]).add_sqs (3 / 2)).get_range 0 0 1 = -24 ∧ ((-24 : ℚ)) ≠ 0 := by
  decide

/-- Witness for C3 at the one-sample `Stats`. -/
theorem C3_get_range_witness :
    ((Stats.new [(1, -24)]).add_sqs (3 / 2)).get_range 0 0 1 =
      lastPresentDb ((Stats.new [(1, -24)]).add_sqs (3 / 2)).bins 0 - 0 :=
  C3_get_range.2 _ (by decide) (by decide)

/-- Helper: one step of a 4800/4 block preserves the ring invariant, and the
finalization event fires exactly at frame counts that are multiples of 4800
and at least 19200. -/
theorem step_inv (b : Block) (w : ℚ) (k : ℕ) (h : InvB k b) :
    InvB (k + 1) ((b.step w).1) ∧
      (((b.step w).2).isSome ↔ (4800 ∣ (k + 1) ∧ 19200 ≤ k + 1)) := by
  obtain ⟨ho, hs, hc, hof, hu⟩ := h
  have hmod : k % 4800 < 4800 := Nat.mod_lt _ (by norm_num)
  simp only [Block.step]
  by_cases hb : b.ring_count + 1 = b.overlap_size
  · rw [if_pos hb]
    rw [ho, hc] at hb
    constructor
    · refine ⟨ho, hs, ?_, ?_, ?_⟩ <;> simp only [hs, hof, hu]
      · omega
      · split_ifs <;> omega
      · split_ifs <;> omega
    · rw [hu, hs]
      by_cases hfull : min (k / 4800 + 1) 4 = 4
      · rw [if_pos hfull]
        simp only [Option.isSome_some, true_iff]
        omega
      · rw [if_neg hfull]
        simp only [Option.isSome_none, Bool.false_eq_true, false_iff]
        omega
  · rw [if_neg hb]
    rw [ho, hc] at hb
    constructor
    · refine ⟨ho, hs, ?_, ?_, ?_⟩ <;> simp only [hc, hof, hu]
      · omega
      · omega
      · omega
    · simp only [Option.isSome_none, Bool.false_eq_true, false_iff]
      omega

/-- Helper: the finalization events of feeding a frame list to a block in
invariant state `k` occur exactly at the global frame counts that are multiples
of 4800 and at least 19200. -/
theorem feed_outputs (ws : List ℚ) :
    ∀ (b : Block) (k : ℕ), InvB k b → ∀ n, n < ws.length →
      (((b.feed ws).2.getD n none).isSome ↔ (4800 ∣ (k + n + 1) ∧ 19200 ≤ k + n + 1)) := by
  induction ws with
  | nil =>
    intro b k _ n hn
    simp at hn
  | cons w ws ih =>
    intro b k hk n hn
    obtain ⟨h1, h2⟩ := step_inv b w k hk
    cases n with
    | zero =>
      simp only [Block.feed, List.getD_cons_zero]
      simpa using h2
    | succ m =>
      simp only [Block.feed, List.getD_cons_succ]
      have hrec := ih (b.step w).1 (k + 1) h1 m (by simpa using hn)
      have heq : k + 1 + m + 1 = k + (m + 1) + 1 := by omega
      rw [heq] at hrec
      exact hrec

/-- C5: with sample rate 48000, window length 0.4 s and partition 4 the overlap
size is 4800 (first conjunct); feeding any sequence of frame energies to
`Block::new(4800, 4)`, the finalization branch runs exactly at frames 19200,
24000, 28800, … — the multiples of 4800 that are at least `4·4800 = 19200`
(second conjunct); and a finalized block power is submitted to `Stats` iff it
strictly exceeds the gate (third conjunct), which `Block::new` sets to
`Power::MIN` (fourth conjunct). -/
theorem C5_block_alignment :
    overlapSize (2 / 5) 48000 4 = 4800 ∧
      (∀ (edges : List (ℚ × ℚ)) (ws : List ℚ) (n : ℕ), n < ws.length →
        ((((Block.new edges 4800 4).feed ws).2.getD n none).isSome ↔
          (4800 ∣ (n + 1) ∧ 19200 ≤ n + 1))) ∧
      (∀ (b : Block) (w : ℚ),
        (b.step w).1.stats =
          match (b.step w).2 with
          | some v => if b.gate < v then b.stats.add_sqs v else b.stats
          | none => b.stats) ∧
      (∀ edges : List (ℚ × ℚ), (Block.new edges 4800 4).gate = powerMinVal) := by
  refine ⟨by decide, ?_, ?_, fun edges => rfl⟩
  · intro edges ws n hn
    have h0 : InvB 0 (Block.new edges 4800 4) := by
      refine ⟨rfl, rfl, rfl, rfl, rfl⟩
    have h := feed_outputs ws (Block.new edges 4800 4) 0 h0 n hn
    simpa using h
  · intro b w
    simp only [Block.step]
    by_cases hb : b.ring_count + 1 = b.overlap_size
    · rw [if_pos hb]
    · rw [if_neg hb]

/-- Witness for C5 at a one-frame feed. -/
theorem C5_block_alignment_witness :
    (0 : ℕ) < ([0] : List ℚ).length ∧
      ((((Block.new [] 4800 4).feed [0]).2.getD 0 none).isSome ↔
        (4800 ∣ (0 + 1) ∧ 19200 ≤ 0 + 1)) :=
  ⟨by decide, C5_block_alignment.2.1 [] [0] 0 (by decide)⟩

/-- Helper: the fresh bins of `Stats.new` hold no samples. -/
theorem binCountSum_new (edges : List (ℚ × ℚ)) :
    binCountSum (edges.map fun e => (e.1, { db := e.2, count := 0 })) = 0 := by
  induction edges with
  | nil => rfl
  | cons e rest ih => simpa [binCountSum_cons] using ih

/-- Helper: a successful floor-bin increment adds one sample to exactly one
cell, preserving the bin list length and never decreasing any count. -/
theorem updateLastLE_some (w : ℚ) :
    ∀ (bins bins1 : List (ℚ × Bin)), updateLastLE bins w = some bins1 →
      binCountSum bins1 = binCountSum bins + 1 ∧ bins1.length = bins.length ∧
        List.Forall₂ (fun p q => p.2.count ≤ q.2.count) bins bins1 := by
  intro bins
  induction bins with
  | nil =>
    intro bins1 h
    simp [updateLastLE] at h
  | cons p rest ih =>
    intro bins1 h
    obtain ⟨k, b⟩ := p
    simp only [updateLastLE] at h
    cases hrec : updateLastLE rest w with
    | some rest1 =>
      rw [hrec] at h
      simp only [Option.some.injEq] at h
      subst h
      obtain ⟨h1, h2, h3⟩ := ih rest1 hrec
      refine ⟨?_, ?_, List.Forall₂.cons le_rfl h3⟩
      · rw [binCountSum_cons, binCountSum_cons, h1]
        omega
      · simp [h2]
    | none =>
      rw [hrec] at h
      by_cases hk : k ≤ w
      · rw [if_pos hk] at h
        simp only [Option.some.injEq] at h
        subst h
        refine ⟨?_, by simp, ?_⟩
        · rw [binCountSum_cons, binCountSum_cons]
          simp only
          omega
        · exact List.Forall₂.cons (by simp) (List.forall₂_same.mpr fun x _ => le_rfl)
      · rw [if_neg hk] at h
        simp at h

/-- Helper: `zipAddCounts` keeps the left operand's length. -/
theorem zipAddCounts_length : ∀ l r : List (ℚ × Bin), (zipAddCounts l r).length = l.length := by
  intro l
  induction l with
  | nil => intro r; cases r <;> rfl
  | cons p l ih =>
    intro r
    cases r with
    | nil => rfl
    | cons q r =>
      obtain ⟨k, b⟩ := p
      obtain ⟨kq, rb⟩ := q
      simp [zipAddCounts, ih]

/-- Helper: on equal-length bin lists, `zipAddCounts` adds the total counts. -/
theorem zipAddCounts_sum : ∀ l r : List (ℚ × Bin), r.length = l.length →
    binCountSum (zipAddCounts l r) = binCountSum l + binCountSum r := by
  intro l
  induction l with
  | nil =>
    intro r hr
    have : r = [] := List.length_eq_zero.mp hr
    subst this
    rfl
  | cons p l ih =>
    intro r hr
    cases r with
    | nil => simp at hr
    | cons q r =>
      obtain ⟨k, b⟩ := p
      obtain ⟨kq, rb⟩ := q
      simp only [List.length_cons] at hr
      simp only [zipAddCounts, binCountSum_cons, ih r (by omega)]
      omega

/-- Helper: `zipAddCounts` never decreases a count of the left operand. -/
theorem zipAddCounts_le : ∀ l r : List (ℚ × Bin),
    List.Forall₂ (fun p q => p.2.count ≤ q.2.count) l (zipAddCounts l r) := by
  intro l
  induction l with
  | nil => intro r; cases r <;> exact List.Forall₂.nil
  | cons p l ih =>
    intro r
    cases r with
    | nil =>
      exact List.forall₂_same.mpr fun x _ => le_rfl
    | cons q r =>
      obtain ⟨k, b⟩ := p
      obtain ⟨kq, rb⟩ := q
      exact List.Forall₂.cons (by simp) (ih r)

/-- Helper: the combined effects of one `add_sqs` call. -/
theorem add_sqs_effects (s : Stats) (w : ℚ) :
    s.max_wmsq ≤ (s.add_sqs w).max_wmsq ∧ w ≤ (s.add_sqs w).max_wmsq ∧
      s.pass1_count ≤ (s.add_sqs w).pass1_count ∧
      List.Forall₂ (fun p q => p.2.count ≤ q.2.count) s.bins (s.add_sqs w).bins ∧
      (binCountSum s.bins = s.pass1_count →
        binCountSum (s.add_sqs w).bins = (s.add_sqs w).pass1_count) ∧
      (s.add_sqs w).bins.length = s.bins.length := by
  by_cases hmax : s.max_wmsq < w
  · cases hupd : updateLastLE s.bins w with
    | some bins1 =>
      have hEq : s.add_sqs w =
          { max_wmsq := w
            pass1_wmsq := s.pass1_wmsq + (w - s.pass1_wmsq) / ((s.pass1_count + 1 : ℕ) : ℚ)
            pass1_count := s.pass1_count + 1
            bins := bins1 } := by
        simp [Stats.add_sqs, hmax, hupd]
      obtain ⟨h1, h2, h3⟩ := updateLastLE_some w s.bins bins1 hupd
      rw [hEq]
      exact ⟨le_of_lt hmax, le_rfl, Nat.le_succ _, h3,
        fun hsum => by
          show binCountSum bins1 = s.pass1_count + 1
          rw [h1, hsum], h2⟩
    | none =>
      have hEq : s.add_sqs w = { s with max_wmsq := w } := by
        simp [Stats.add_sqs, hmax, hupd]
      rw [hEq]
      exact ⟨le_of_lt hmax, le_rfl, le_rfl, List.forall₂_same.mpr fun x _ => le_rfl,
        fun hsum => hsum, rfl⟩
  · cases hupd : updateLastLE s.bins w with
    | some bins1 =>
      have hEq : s.add_sqs w =
          { max_wmsq := s.max_wmsq
            pass1_wmsq := s.pass1_wmsq + (w - s.pass1_wmsq) / ((s.pass1_count + 1 : ℕ) : ℚ)
            pass1_count := s.pass1_count + 1
            bins := bins1 } := by
        simp [Stats.add_sqs, hmax, hupd]
      obtain ⟨h1, h2, h3⟩ := updateLastLE_some w s.bins bins1 hupd
      rw [hEq]
      exact ⟨le_rfl, le_of_not_lt hmax, Nat.le_succ _, h3,
        fun hsum => by
          show binCountSum bins1 = s.pass1_count + 1
          rw [h1, hsum], h2⟩
    | none =>
      have hEq : s.add_sqs w = s := by
        simp [Stats.add_sqs, hmax, hupd]
      rw [hEq]
      exact ⟨le_rfl, le_of_not_lt hmax, le_rfl, List.forall₂_same.mpr fun x _ => le_rfl,
        fun hsum => hsum, rfl⟩

/-- Helper: the combined effects of one `merge` call. -/
theorem merge_effects (s t : Stats) :
    s.max_wmsq ≤ (s.merge t).max_wmsq ∧ t.max_wmsq ≤ (s.merge t).max_wmsq ∧
      s.pass1_count ≤ (s.merge t).pass1_count ∧
      List.Forall₂ (fun p q => p.2.count ≤ q.2.count) s.bins (s.merge t).bins ∧
      (t.bins.length = s.bins.length → binCountSum s.bins = s.pass1_count →
        binCountSum t.bins = t.pass1_count →
        binCountSum (s.merge t).bins = (s.merge t).pass1_count) ∧
      (s.merge t).bins.length = s.bins.length := by
  by_cases hmax : s.max_wmsq < t.max_wmsq
  · by_cases hcnt : 0 < s.pass1_count + t.pass1_count
    · have hEq : s.merge t =
          { max_wmsq := t.max_wmsq
            pass1_wmsq := s.pass1_wmsq *
                ((s.pass1_count : ℚ) / ((s.pass1_count + t.pass1_count : ℕ) : ℚ)) +
              t.pass1_wmsq * ((t.pass1_count : ℚ) / ((s.pass1_count + t.pass1_count : ℕ) : ℚ))
            pass1_count := s.pass1_count + t.pass1_count
            bins := zipAddCounts s.bins t.bins } := by
        simp [Stats.merge, hmax, hcnt]
      rw [hEq]
      exact ⟨le_of_lt hmax, le_rfl, Nat.le_add_right _ _, zipAddCounts_le s.bins t.bins,
        fun hlen h1 h2 => by
          show binCountSum (zipAddCounts s.bins t.bins) = s.pass1_count + t.pass1_count
          rw [zipAddCounts_sum s.bins t.bins hlen, h1, h2],
        zipAddCounts_length s.bins t.bins⟩
    · have hEq : s.merge t = { s with max_wmsq := t.max_wmsq } := by
        simp [Stats.merge, hmax, hcnt]
      rw [hEq]
      exact ⟨le_of_lt hmax, le_rfl, le_rfl, List.forall₂_same.mpr fun x _ => le_rfl,
        fun _ h1 _ => h1, rfl⟩
  · by_cases hcnt : 0 < s.pass1_count + t.pass1_count
    · have hEq : s.merge t =
          { max_wmsq := s.max_wmsq
            pass1_wmsq := s.pass1_wmsq *
                ((s.pass1_count : ℚ) / ((s.pass1_count + t.pass1_count : ℕ) : ℚ)) +
              t.pass1_wmsq * ((t.pass1_count : ℚ) / ((s.pass1_count + t.pass1_count : ℕ) : ℚ))
            pass1_count := s.pass1_count + t.pass1_count
            bins := zipAddCounts s.bins t.bins } := by
        simp [Stats.merge, hmax, hcnt]
      rw [hEq]
      exact ⟨le_rfl, le_of_not_lt hmax, Nat.le_add_right _ _, zipAddCounts_le s.bins t.bins,
        fun hlen h1 h2 => by
          show binCountSum (zipAddCounts s.bins t.bins) = s.pass1_count + t.pass1_count
          rw [zipAddCounts_sum s.bins t.bins hlen, h1, h2],
        zipAddCounts_length s.bins t.bins⟩
    · have hEq : s.merge t = s := by
        simp [Stats.merge, hmax, hcnt]
      rw [hEq]
      exact ⟨le_rfl, le_of_not_lt hmax, le_rfl, List.forall₂_same.mpr fun x _ => le_rfl,
        fun _ h1 _ => h1, rfl⟩

/-- Helper: the inductive invariant of every reachable `Stats`: the histogram
total equals `pass1_count`, the bin list keeps the length of the edge table,
and `max_wmsq` dominates every power ever added. -/
theorem builtW_invariant (edges : List (ℚ × ℚ)) (s : Stats) (W : Multiset ℚ)
    (h : BuiltW edges s W) :
    (∀ w ∈ W, w ≤ s.max_wmsq) ∧ binCountSum s.bins = s.pass1_count ∧
      s.bins.length = edges.length := by
  induction h with
  | new =>
    refine ⟨by simp, binCountSum_new edges, by simp [Stats.new]⟩
  | add hb ih =>
    obtain ⟨ihw, ihsum, ihlen⟩ := ih
    rename_i s1 W1 w1
    obtain ⟨e1, e2, e3, e4, e5, e6⟩ := add_sqs_effects s1 w1
    refine ⟨?_, e5 ihsum, by omega⟩
    intro x hx
    rcases Multiset.mem_cons.mp hx with hx | hx
    · subst hx
      exact e2
    · exact le_trans (ihw x hx) e1
  | merge hb1 hb2 ih1 ih2 =>
    obtain ⟨ihw1, ihsum1, ihlen1⟩ := ih1
    obtain ⟨ihw2, ihsum2, ihlen2⟩ := ih2
    rename_i s1 W1 t1 V1
    obtain ⟨e1, e2, e3, e4, e5, e6⟩ := merge_effects s1 t1
    refine ⟨?_, e5 (by omega) ihsum1 ihsum2, by omega⟩
    intro x hx
    rcases Multiset.mem_add.mp hx with hx | hx
    · exact le_trans (ihw1 x hx) e1
    · exact le_trans (ihw2 x hx) e2

/-- C7: for every `Stats` built by any sequence of `add_sqs` and `merge`
operations, `max_wmsq` dominates every power ever added and the histogram
counts sum to `pass1_count` (first conjunct); and `max_wmsq`, `pass1_count`
and each individual bin count never decrease across an `add_sqs` (second
conjunct) or a `merge` (third conjunct). -/
theorem C7_stats_invariants :
    (∀ (edges : List (ℚ × ℚ)) (s : Stats) (W : Multiset ℚ), BuiltW edges s W →
        (∀ w ∈ W, w ≤ s.max_wmsq) ∧ binCountSum s.bins = s.pass1_count) ∧
      (∀ (s : Stats) (w : ℚ),
        s.max_wmsq ≤ (s.add_sqs w).max_wmsq ∧ s.pass1_count ≤ (s.add_sqs w).pass1_count ∧
          List.Forall₂ (fun p q => p.2.count ≤ q.2.count) s.bins (s.add_sqs w).bins) ∧
      (∀ s t : Stats,
        s.max_wmsq ≤ (s.merge t).max_wmsq ∧ s.pass1_count ≤ (s.merge t).pass1_count ∧
          List.Forall₂ (fun p q => p.2.count ≤ q.2.count) s.bins (s.merge t).bins) := by
  refine ⟨?_, ?_, ?_⟩
  · intro edges s W h
    obtain ⟨h1, h2, _⟩ := builtW_invariant edges s W h
    exact ⟨h1, h2⟩
  · intro s w
    obtain ⟨e1, _, e3, e4, _, _⟩ := add_sqs_effects s w
    exact ⟨e1, e3, e4⟩
  · intro s t
    obtain ⟨e1, _, e3, e4, _, _⟩ := merge_effects s t
    exact ⟨e1, e3, e4⟩

/-- Witness for C7 at a one-bin table after a single `add_sqs`. -/
theorem C7_stats_invariants_witness :
    (∀ w ∈ (2 ::ₘ (0 : Multiset ℚ)), w ≤ ((Stats.new [(1, -24)]).add_sqs 2).max_wmsq) ∧
      binCountSum ((Stats.new [(1, -24)]).add_sqs 2).bins =
        ((Stats.new [(1, -24)]).add_sqs 2).pass1_count :=
  C7_stats_invariants.1 [(1, -24)] _ _ (BuiltW.add BuiltW.new)

/-- Helper: a channel step of a pre-filter whose ring holds a single frame
contributes nothing to `wssqs`. -/
theorem stepCh_snd_one (f1 f2 : Biquad) (offs : ℤ) (ch : ℕ) (buf : List ℚ) (s : ℚ) :
    (stepCh f1 f2 offs 1 ch buf s).2 = 0 := by
  simp [stepCh]

/-- Helper: the channel fold of `add_sample` accumulates no `wssqs` when the
ring holds a single frame. -/
theorem foldl_wssqs_zero (f1 f2 : Biquad) (offs : ℤ) (sample : List ℚ) :
    ∀ (l : List ℕ) (bs : List (List ℚ)) (q : ℚ),
      (l.foldl (fun (acc : List (List ℚ) × ℚ) ch =>
        (acc.1.set ch (stepCh f1 f2 offs 1 ch (acc.1.getD ch []) (sample.getD ch 0)).1,
          acc.2 + (stepCh f1 f2 offs 1 ch (acc.1.getD ch []) (sample.getD ch 0)).2))
        (bs, q)).2 = q := by
  intro l
  induction l with
  | nil => intro bs q; rfl
  | cons x xs ih =>
    intro bs q
    simp only [List.foldl_cons]
    rw [ih, stepCh_snd_one, add_zero]

/-- C4 counterexample: feeding the two frames `[1]`, `[1]` to a fresh
single-channel pre-filter at 48 kHz, the second frame already produces a
nonzero `wssqs` — the filter output is computed although only one prior frame
exists, refuting the claim that the first two frames produce none. -/
theorem C4_second_frame_counterexample :
    (preFilterOutputs (PreFilter.new48 1) [[1], [1]]).getD 1 0 ≠ 0 := by decide

/-- Helper: a channel step of a pre-filter with more than one frame of history
takes the filter branch: its `wssqs` contribution is the cascade value. -/
theorem stepCh_snd_computed (f1 f2 : Biquad) (offs : ℤ) (rs ch : ℕ) (buf : List ℚ) (s : ℚ)
    (h : 1 < rs) : (stepCh f1 f2 offs rs ch buf s).2 = chContrib f1 f2 offs ch buf s := by
  simp [stepCh, chContrib, h]

/-- Helper: over pairwise-distinct channel indices, the channel fold of
`add_sample` accumulates exactly the sum of the per-channel cascade
contributions, each computed from that channel's untouched buffer. -/
theorem foldl_wssqs_sum (f1 f2 : Biquad) (offs : ℤ) (rs : ℕ) (h : 1 < rs) (sample : List ℚ)
    (B : ℕ → List ℚ) :
    ∀ l : List ℕ, l.Nodup → ∀ (bs : List (List ℚ)) (q : ℚ),
      (∀ ch ∈ l, bs.getD ch [] = B ch) →
      (l.foldl (fun (acc : List (List ℚ) × ℚ) ch =>
        (acc.1.set ch (stepCh f1 f2 offs rs ch (acc.1.getD ch []) (sample.getD ch 0)).1,
          acc.2 + (stepCh f1 f2 offs rs ch (acc.1.getD ch []) (sample.getD ch 0)).2))
        (bs, q)).2 =
      q + (l.map fun ch => chContrib f1 f2 offs ch (B ch) (sample.getD ch 0)).sum := by
  intro l
  induction l with
  | nil =>
    intro _ bs q _
    simp
  | cons x xs ih =>
    intro hnd bs q hB
    obtain ⟨hx, hxs⟩ := List.nodup_cons.mp hnd
    simp only [List.foldl_cons]
    have hinv : ∀ ch ∈ xs,
        ((bs.set x (stepCh f1 f2 offs rs x (bs.getD x []) (sample.getD x 0)).1).getD ch []) =
          B ch := by
      intro ch hch
      have hne : x ≠ ch := fun he => hx (he ▸ hch)
      rw [List.getD_eq_getElem?_getD, List.getElem?_set_ne hne, ← List.getD_eq_getElem?_getD]
      exact hB ch (List.mem_cons_of_mem _ hch)
    rw [ih hxs (bs.set x (stepCh f1 f2 offs rs x (bs.getD x []) (sample.getD x 0)).1)
      (q + (stepCh f1 f2 offs rs x (bs.getD x []) (sample.getD x 0)).2) hinv]
    rw [stepCh_snd_computed f1 f2 offs rs x (bs.getD x []) (sample.getD x 0) h,
      hB x (List.mem_cons_self x xs)]
    simp [add_assoc]

/-- Helper: once more than one frame of history exists, `add_sample` forwards
exactly the spec-side computed `wssqs` of the frame — the gate no longer
suppresses anything. -/
theorem addSampleW_computed (pf : PreFilter) (sample : List ℚ) (h : 1 < pf.ring_size) :
    (pf.addSampleW sample).2 = wssqsSpec pf sample := by
  simp only [PreFilter.addSampleW, wssqsSpec]
  rw [foldl_wssqs_sum pf.f1 pf.f2 pf.ring_offs pf.ring_size h sample
    (fun ch => pf.ring_buf.getD ch []) (List.range (min sample.length pf.channels))
    (List.nodup_range _) pf.ring_buf 0 (fun ch _ => rfl)]
  rw [zero_add]

/-- Helper: how one `add_sample` call advances the warm-up counter. -/
theorem add_sample_ring_size (pf : PreFilter) (sample : List ℚ) :
    (pf.add_sample sample).ring_size =
      if pf.ring_size < 2 then pf.ring_size + 1 else pf.ring_size := rfl

/-- Helper: a pre-filter whose warm-up is complete stays warm under any frames. -/
theorem feed_ring_size : ∀ (frames : List (List ℚ)) (pf : PreFilter), pf.ring_size = 2 →
    (pf.feed frames).ring_size = 2 := by
  intro frames
  induction frames with
  | nil => intro pf h; exact h
  | cons f fs ih =>
    intro pf h
    show (PreFilter.feed (pf.add_sample f) fs).ring_size = 2
    refine ih _ ?_
    rw [add_sample_ring_size, h]
    simp

/-- Helper: after any nonempty frame list, a fresh pre-filter has more than
one frame of history (`ring_size = 2`). -/
theorem fresh_feed_ring_size (channels : ℕ) (frames : List (List ℚ)) (h : frames ≠ []) :
    ((PreFilter.new48 channels).feed frames).ring_size = 2 := by
  cases frames with
  | nil => exact absurd rfl h
  | cons f fs =>
    show (PreFilter.feed ((PreFilter.new48 channels).add_sample f) fs).ring_size = 2
    refine feed_ring_size fs _ ?_
    rw [add_sample_ring_size]
    rfl

/-- Helper: the `n`-th forwarded `wssqs` is the `add_sample` output of the
state reached after the first `n` frames. -/
theorem outputs_getD : ∀ (frames : List (List ℚ)) (pf : PreFilter) (n : ℕ), n < frames.length →
    (preFilterOutputs pf frames).getD n 0 =
      ((pf.feed (frames.take n)).addSampleW (frames.getD n [])).2 := by
  intro frames
  induction frames with
  | nil =>
    intro pf n h
    simp at h
  | cons f fs ih =>
    intro pf n h
    cases n with
    | zero => simp [preFilterOutputs, PreFilter.feed]
    | succ m =>
      simp only [preFilterOutputs, List.getD_cons_succ, List.take_succ_cons]
      rw [ih (pf.addSampleW f).1 m (by simpa using h)]
      rfl

/-- C4 amended: only the first frame produces no `wssqs`. First conjunct: for
every fresh pre-filter (any channel count) and every first frame, the
forwarded `wssqs` is 0 — the `1 < ring_size` gate suppresses the filter.
Second conjunct: for every frame sequence, every channel count and every
frame index `n ≥ 1` (so at least one prior frame exists), the forwarded
`wssqs` equals the spec-side computed cascade value `wssqsSpec` of the state
reached after the first `n` frames — the filter output is computed from the
second frame on, with never-written history slots read as zeros. Third
conjunct: on one channel the second output is concretely
`(s2·b0(f1) + s1·b1(f1))²`, since f2's reference section has `b0 = 1` and the
remaining taps read zeros. -/
theorem C4_warmup :
    (∀ (channels : ℕ) (frame : List ℚ),
        ((PreFilter.new48 channels).addSampleW frame).2 = 0) ∧
      (∀ (channels n : ℕ) (frames : List (List ℚ)), 0 < n → n < frames.length →
        (preFilterOutputs (PreFilter.new48 channels) frames).getD n 0 =
          wssqsSpec ((PreFilter.new48 channels).feed (frames.take n)) (frames.getD n [])) ∧
      (∀ s1 s2 : ℚ,
        (preFilterOutputs (PreFilter.new48 1) [[s1], [s2]]).getD 1 0 =
          (s2 * Biquad.f1_48000.b0 + s1 * Biquad.f1_48000.b1) ^ 2) := by
  refine ⟨?_, ?_, ?_⟩
  · intro channels frame
    simp only [PreFilter.addSampleW, PreFilter.new48]
    exact foldl_wssqs_zero _ _ _ _ _ _ _
  · intro channels n frames hn hlen
    rw [outputs_getD frames (PreFilter.new48 channels) n hlen]
    apply addSampleW_computed
    have htake : frames.take n ≠ [] := by
      intro hnil
      have hcon := congrArg List.length hnil
      simp only [List.length_take, List.length_nil] at hcon
      omega
    rw [fresh_feed_ring_size channels (frames.take n) htake]
    norm_num
  · intro s1 s2
    simp [preFilterOutputs, PreFilter.addSampleW, PreFilter.new48, stepCh, xIdx, yIdx, zIdx,
      channelWeights, bufSize, List.range_succ, Block.add_sqs, Biquad.f1_48000, Biquad.f2_48000]
    ring_nf

/-- Witness for C4 at the two-frame unit feed. -/
theorem C4_warmup_witness :
    (0 : ℕ) < 1 ∧ 1 < ([[1], [1]] : List (List ℚ)).length ∧
      (preFilterOutputs (PreFilter.new48 1) [[1], [1]]).getD 1 0 =
        wssqsSpec ((PreFilter.new48 1).feed (([[1], [1]] : List (List ℚ)).take 1))
          (([[1], [1]] : List (List ℚ)).getD 1 []) :=
  ⟨by decide, by decide, C4_warmup.2.1 1 1 [[1], [1]] (by decide) (by decide)⟩

end Chksound
